import Mathlib

/-! Multipart upload: partition, upload, compose.

A shallow embedding of `main.go`: the byte ranges the program reads
(`sizeOfEachPart`, `remainder`, the per-task buffer and read offset), the
per-partition upload task, the coordinator that joins the tasks, and the final
compose request.

Conventions.
* `int64` values are exact integers reduced with `wrap64` after every
  arithmetic operation that can leave the 64-bit range.
* The closure started by `eg.Go` sees the value of `i` of its own iteration.
* The pool is only ever read with `Get`; nothing is returned to it, so every
  `Get` runs `New`.
-/

namespace Multipart

/-! ## Machine integers -/

/-- Two's-complement reduction of an exact integer to the range of `int64`. -/
def wrap64 (x : Int) : Int := (x + 2 ^ 63) % 2 ^ 64 - 2 ^ 63

/-- The values an `int64` can hold. -/
def InInt64 (x : Int) : Prop := -(2 ^ 63) ≤ x ∧ x < 2 ^ 63

instance (x : Int) : Decidable (InInt64 x) := by
  unfold InInt64; exact inferInstance

/-! ## Partition arithmetic (main.go:44-51, 74-83) -/

/-- Line 44, `sizeOfEachPart := fileInfo.Size() / int64(numberOfParts)`; the quotient
truncates toward zero. The divisor is nonzero here: a zero divisor stops the
program before this value exists (see `main`). -/
def sizeOfEachPart (S P : Int) : Int := wrap64 (Int.tdiv S P)

/-- Line 45, `remainder := fileInfo.Size() % int64(numberOfParts)`; the remainder takes
the sign of the dividend. -/
def remainder (S P : Int) : Int := wrap64 (Int.tmod S P)

/-- Length of the buffer returned by `pool.Get()`: the pool is always empty, so
this is `make([]byte, sizeOfEachPart)`. -/
def poolGet (S P : Int) : Int := sizeOfEachPart S P

/-- Length of `buf` in task `i`: pooled unless `i` is the last index, otherwise
`make([]byte, sizeOfEachPart+remainder)`. -/
def bufLen (S P i : Int) : Int :=
  if i ≠ wrap64 (P - 1) then poolGet S P
  else wrap64 (sizeOfEachPart S P + remainder S P)

/-- Offset handed to `f.ReadAt` in task `i`: `i*sizeOfEachPart`. -/
def readOffset (S P i : Int) : Int := wrap64 (i * sizeOfEachPart S P)

/-- Values taken by `i` in `for i := int64(0); i < int64(numberOfParts); i++`. -/
def taskIndices (P : Int) : List Nat := List.range P.toNat

/-- One byte range read by the program. -/
structure ByteRange where
  index : Nat
  offset : Int
  length : Int
  deriving DecidableEq, Repr

/-- The byte range of task `i`. -/
def rangeOf (S P : Int) (i : Nat) : ByteRange :=
  { index := i, offset := readOffset S P i, length := bufLen S P i }

/-- The ranges of all tasks, in index order. -/
def plan (S P : Int) : List ByteRange := (taskIndices P).map (rangeOf S P)

/-! ## Object names (main.go:41-42, 92, 114) -/

/-- Scan of `filepath.Ext` from the end of the path: `acc` holds what has been
passed already. The scan stops with no extension at a separator and returns the
suffix that begins at the first dot it meets. -/
def extScan : List Char → List Char → List Char
  | [], _ => []
  | c :: rest, acc =>
    if c = '/' then []
    else if c = '.' then '.' :: acc
    else extScan rest (c :: acc)

/-- The function `filepath.Ext`: the suffix beginning at the final dot of the final element
of the path, the dot included; empty if there is no dot. -/
def Ext (path : String) : String := String.mk (extScan path.data.reverse [])

/-- The function `filepath.Base`: the last element of the path, trailing separators removed
first; `"."` for the empty path and `"/"` for a path of separators only. -/
def Base (path : String) : String :=
  if path.data = [] then "."
  else
    let stripped := (path.data.reverse.dropWhile (fun c => c = '/')).reverse
    let last := (stripped.reverse.takeWhile (fun c => c ≠ '/')).reverse
    if last = [] then "/" else String.mk last

/-- Keys of objects in the bucket. -/
abbrev Key := String

/-- Key of part `i`: `fmt.Sprintf("%s-%d.%s", fileName, i, extension)` with
`fileName := filepath.Base(fileLocation)` and
`extension := filepath.Ext(fileLocation)`. -/
def partKey (path : String) (i : Nat) : Key :=
  Base path ++ "-" ++ Nat.repr i ++ "." ++ Ext path

/-- Key of the composed object: `fileInfo.Name()`, the base name of the path
that was given to `os.Stat`. -/
def finalKey (path : String) : Key := Base path

/-! ## Reads, writes and the upload task (main.go:75-105) -/

/-- Errors seen by a task: `io.EOF`, or any other error. -/
inductive Err where
  | eof
  | other (code : Nat)
  deriving DecidableEq, Repr

/-- The test `errors.Is(err, io.EOF)`. -/
def Err.isEOF : Err → Bool
  | .eof => true
  | .other _ => false

/-- Result of `f.ReadAt(buf, off)`: the bytes now in `buf[:bytesRead]` and the
error. -/
structure ReadResult (α : Type) where
  data : List α
  err : Option Err

/-- What the surroundings answer to a run: every positional read (by task
index, buffer length and offset), every `io.Copy` into a part writer (by task
index) and the compose request. -/
structure Env (α : Type) where
  readAt : Nat → Int → Int → ReadResult α
  copy : Nat → Option Err
  compose : Key → List (Option Key) → Option Err

/-- The method `ReadAt` of a regular file with content `c`: a negative offset is an error;
otherwise the bytes from `off` on are copied until the buffer is full or the
file ends, and a buffer left short is reported as `io.EOF`. -/
def osReadAt {α : Type} (c : List α) (len off : Int) : ReadResult α :=
  if off < 0 then { data := [], err := some (Err.other 0) }
  else
    let data := (c.drop off.toNat).take len.toNat
    if data.length < len.toNat then { data := data, err := some Err.eof }
    else { data := data, err := none }

/-- Surroundings in which the file holds `c` at every read and no write and no
compose request fails. -/
def fileEnv {α : Type} (c : List α) : Env α :=
  { readAt := fun _ len off => osReadAt c len off
    copy := fun _ => none
    compose := fun _ _ => none }

/-- What one task did: the error it returned, the part object it wrote and the
handle it stored in `parts[i]`. -/
structure TaskResult (α : Type) where
  err : Option Err
  object : Option (Key × List α)
  handle : Option Key

/-- The closure of `eg.Go` for index `i`. A read error ends the task: with
`nil` when it is `io.EOF`, with the error otherwise. After a clean read the
bytes `buf[:bytesRead]` are copied to the part object; a failed copy ends the
task with its error, a successful one is followed by `parts[i] = obj`. The
result of the deferred `w.Close()` is dropped by the source, and the object
counts as written when the copy returned `nil`. -/
def uploadTask {α : Type} (env : Env α) (path : String) (S P : Int) (i : Nat) :
    TaskResult α :=
  let r := env.readAt i (bufLen S P i) (readOffset S P i)
  match r.err with
  | some e =>
    if e.isEOF then { err := none, object := none, handle := none }
    else { err := some e, object := none, handle := none }
  | none =>
    match env.copy i with
    | some e => { err := some e, object := none, handle := none }
    | none =>
      { err := none, object := some (partKey path i, r.data),
        handle := some (partKey path i) }

/-! ## Coordinator and compose (main.go:68-74, 108-120) -/

/-- State shared by the tasks: the `parts` slice, the part objects present in
the bucket, the reads performed (index, offset, buffer length) and the error
kept by the group. -/
structure Coord (α : Type) where
  parts : List (Option Key)
  bucket : List (Key × List α)
  reads : List (Nat × Int × Int)
  err : Option Err

/-- State before any task runs: `parts` holds one `nil` per part
(main.go:68-71). -/
def Coord.init {α : Type} (P : Int) : Coord α :=
  { parts := List.replicate P.toNat none, bucket := [], reads := [], err := none }

/-- Effects of task `i` on the shared state. The group keeps the first
non-nil error it is given. -/
def complete {α : Type} (env : Env α) (path : String) (S P : Int) (st : Coord α)
    (i : Nat) : Coord α :=
  let r := uploadTask env path S P i
  { parts := match r.handle with
      | some k => st.parts.set i (some k)
      | none => st.parts
    bucket := match r.object with
      | some o => st.bucket ++ [o]
      | none => st.bucket
    reads := st.reads ++ [(i, readOffset S P i, bufLen S P i)]
    err := match st.err with
      | some e => some e
      | none => r.err }

/-- State at `eg.Wait()` when the tasks take effect in the order `order`. -/
def joinTasks {α : Type} (env : Env α) (path : String) (S P : Int)
    (order : List Nat) : Coord α :=
  order.foldl (complete env path S P) (Coord.init P)

/-- Content of the object stored under `k`; the latest write wins. -/
def lookupObject {α : Type} (bucket : List (Key × List α)) (k : Key) :
    Option (List α) :=
  (bucket.reverse.find? (fun o => o.1 = k)).map (fun o => o.2)

/-- Modelled from the spec: the store's compose operation, which is not part
of the sources. It concatenates the contents of the source objects in the
order supplied; a source that is `nil` or names no object yields no result. -/
def composeContent {α : Type} (bucket : List (Key × List α)) :
    List (Option Key) → Option (List α)
  | [] => some []
  | none :: _ => none
  | some k :: rest =>
    match lookupObject bucket k, composeContent bucket rest with
    | some c, some cs => some (c ++ cs)
    | _, _ => none

/-- How the program ends. -/
inductive Exit where
  | divideByZero
  | uploadFailed (e : Err)
  | composeFailed (e : Err)
  | success
  deriving DecidableEq, Repr

/-- Observable account of one run. -/
structure Run (α : Type) where
  reads : List (Nat × Int × Int)
  bucket : List (Key × List α)
  composeRequests : List (Key × List (Option Key))
  final : Option (Key × List α)
  exit : Exit

/-- The program from main.go:44 on, for a file of size `S` at `path`, the part
count `P`, and the order in which the started tasks take effect (the group
runs each started task once, so `order` is a permutation of `taskIndices P`).
A zero part count stops the program at the division of line 44. Otherwise the
tasks run; a non-nil result of `eg.Wait()` ends the program, and a `nil`
result is followed by one compose request over `parts`. -/
def main {α : Type} (env : Env α) (path : String) (S P : Int) (order : List Nat) :
    Run α :=
  if P = 0 then
    { reads := [], bucket := [], composeRequests := [], final := none,
      exit := Exit.divideByZero }
  else
    let st := joinTasks env path S P order
    match st.err with
    | some e =>
      { reads := st.reads, bucket := st.bucket, composeRequests := [],
        final := none, exit := Exit.uploadFailed e }
    | none =>
      match env.compose (finalKey path) st.parts with
      | some e =>
        { reads := st.reads, bucket := st.bucket,
          composeRequests := [(finalKey path, st.parts)], final := none,
          exit := Exit.composeFailed e }
      | none =>
        { reads := st.reads, bucket := st.bucket,
          composeRequests := [(finalKey path, st.parts)],
          final := (composeContent st.bucket st.parts).map
            (fun c => (finalKey path, c)),
          exit := Exit.success }

/-- The bytes of `c` in the range of task `i`: those at the positions from
`readOffset` up to `readOffset + bufLen`. -/
def rangeBytes {α : Type} (c : List α) (S P : Int) (i : Nat) : List α :=
  (c.drop (readOffset S P i).toNat).take (bufLen S P i).toNat

/-- Reading one decimal digit onto an accumulated value (used to read a
rendered index back). -/
def decodeDigit (acc : Nat) (c : Char) : Nat := 10 * acc + (c.toNat - 48)

/-! ## Arithmetic lemmas -/

theorem wrap64_eq_self {x : Int} (h : InInt64 x) : wrap64 x = x := by
  obtain ⟨h1, h2⟩ := h
  unfold wrap64
  omega

theorem sizeOfEachPart_eq {S P : Int} (hS : 0 ≤ S) (hS2 : S < 2 ^ 63) (hP : 1 ≤ P) :
    sizeOfEachPart S P = S / P := by
  have h0 : 0 ≤ S / P := Int.ediv_nonneg hS (by omega)
  have h1 : S / P ≤ S := Int.ediv_le_self P hS
  unfold sizeOfEachPart
  rw [Int.tdiv_eq_ediv hS (by omega)]
  exact wrap64_eq_self ⟨by omega, by omega⟩

theorem remainder_eq {S P : Int} (hS : 0 ≤ S) (hP : 1 ≤ P) (hP2 : P < 2 ^ 63) :
    remainder S P = S % P := by
  have h0 : 0 ≤ S % P := Int.emod_nonneg S (by omega)
  have h1 : S % P < P := Int.emod_lt_of_pos S (by omega)
  unfold remainder
  rw [Int.tmod_eq_emod hS (by omega)]
  exact wrap64_eq_self ⟨by omega, by omega⟩

/-- Below the part count, `i` times the quotient stays within the file. -/
theorem mul_div_le {S P : Int} (hS : 0 ≤ S) (hP : 1 ≤ P) {i : Int}
    (hi : i < P) : i * (S / P) + S / P + S % P ≤ S := by
  have h0 : 0 ≤ S / P := Int.ediv_nonneg hS (by omega)
  have hdm : P * (S / P) + S % P = S := Int.ediv_add_emod S P
  have hle : (i + 1) * (S / P) ≤ P * (S / P) :=
    Int.mul_le_mul_of_nonneg_right (by omega) h0
  nlinarith

theorem wrap64_pred {P : Int} (hP : 1 ≤ P) (hP2 : P < 2 ^ 63) : wrap64 (P - 1) = P - 1 :=
  wrap64_eq_self ⟨by omega, by omega⟩

theorem readOffset_eq {S P : Int} (hS : 0 ≤ S) (hS2 : S < 2 ^ 63) (hP : 1 ≤ P)
    {i : Nat} (hi : (i : Int) < P) : readOffset S P i = (i : Int) * (S / P) := by
  have h0 : 0 ≤ S / P := Int.ediv_nonneg hS (by omega)
  have hm : 0 ≤ S % P := Int.emod_nonneg S (by omega)
  have hle := mul_div_le hS hP hi
  have hnn : 0 ≤ (i : Int) * (S / P) := Int.mul_nonneg (by omega) h0
  unfold readOffset
  rw [sizeOfEachPart_eq hS hS2 hP]
  exact wrap64_eq_self ⟨by omega, by omega⟩

theorem bufLen_eq {S P : Int} (hS : 0 ≤ S) (hS2 : S < 2 ^ 63) (hP : 1 ≤ P)
    (hP2 : P < 2 ^ 63) (i : Int) :
    bufLen S P i = if i = P - 1 then S / P + S % P else S / P := by
  have h0 : 0 ≤ S / P := Int.ediv_nonneg hS (by omega)
  have hm : 0 ≤ S % P := Int.emod_nonneg S (by omega)
  have hle := mul_div_le hS hP (show (0 : Int) < P by omega)
  unfold bufLen poolGet
  rw [wrap64_pred hP hP2, sizeOfEachPart_eq hS hS2 hP, remainder_eq hS hP hP2]
  by_cases h : i = P - 1
  · simp only [h, ne_eq, not_true_eq_false, if_false, if_true]
    exact wrap64_eq_self ⟨by omega, by omega⟩
  · simp only [h, ne_eq, not_false_eq_true, if_true, if_false]

theorem mul_le_mul_base {a b q : Int} (hab : a ≤ b) (hq : 0 ≤ q) : a * q ≤ b * q :=
  Int.mul_le_mul_of_nonneg_right hab hq

theorem sum_map_range_const (f : Nat → Int) (q : Int) :
    ∀ k : Nat, (∀ i, i < k → f i = q) → ((List.range k).map f).sum = (k : Int) * q
  | 0, _ => by simp
  | k + 1, h => by
    rw [List.sum_range_succ, sum_map_range_const f q k (fun i hi => h i (by omega)),
      h k (by omega)]
    push_cast
    ring

theorem plan_length (S P : Int) : (plan S P).length = P.toNat := by
  simp [plan, taskIndices]

theorem plan_lengths_sum {S P : Int} (hS : 0 ≤ S) (hS2 : S < 2 ^ 63) (hP : 1 ≤ P)
    (hP2 : P < 2 ^ 63) : ((plan S P).map ByteRange.length).sum = S := by
  obtain ⟨m, hm⟩ : ∃ m : Nat, P.toNat = m + 1 := ⟨P.toNat - 1, by omega⟩
  have hPm : P = (m : Int) + 1 := by omega
  have hmap : (plan S P).map ByteRange.length
      = (List.range (m + 1)).map (fun i : Nat => bufLen S P i) := by
    simp [plan, taskIndices, hm, rangeOf, Function.comp_def]
  rw [hmap, List.sum_range_succ,
    sum_map_range_const (fun i : Nat => bufLen S P i) (S / P) m
      (fun i hi => by
        show bufLen S P (i : Int) = S / P
        rw [bufLen_eq hS hS2 hP hP2, if_neg (by omega)])]
  show (m : Int) * (S / P) + bufLen S P (m : Int) = S
  rw [bufLen_eq hS hS2 hP hP2, if_pos (by omega)]
  have hdm : P * (S / P) + S % P = S := Int.ediv_add_emod S P
  have hmP : (m : Int) = P - 1 := by omega
  rw [hmP]
  linarith

/-! ## Part keys are distinct -/

theorem digitChar_decode (k : Nat) (hk : k < 10) : (Nat.digitChar k).toNat - 48 = k := by
  interval_cases k <;> rfl

theorem foldl_toDigitsCore (fuel : Nat) : ∀ (n : Nat) (ds : List Char), n < fuel →
    (Nat.toDigitsCore 10 fuel n ds).foldl decodeDigit 0 = ds.foldl decodeDigit n := by
  induction fuel with
  | zero => intro n ds h; omega
  | succ fuel ih =>
    intro n ds h
    unfold Nat.toDigitsCore
    by_cases hz : n / 10 = 0
    · simp only [hz, if_true, List.foldl_cons]
      congr 1
      unfold decodeDigit
      rw [digitChar_decode _ (Nat.mod_lt _ (by decide))]
      omega
    · simp only [hz, if_false]
      rw [ih (n / 10) _ (by omega), List.foldl_cons]
      congr 1
      unfold decodeDigit
      rw [digitChar_decode _ (Nat.mod_lt _ (by decide))]
      omega

theorem repr_injective {i j : Nat} (h : Nat.repr i = Nat.repr j) : i = j := by
  have hd : Nat.toDigits 10 i = Nat.toDigits 10 j := by
    have := congrArg String.data h
    simpa [Nat.repr, List.asString] using this
  have hi := foldl_toDigitsCore (i + 1) i [] (by omega)
  have hj := foldl_toDigitsCore (j + 1) j [] (by omega)
  unfold Nat.toDigits at hd
  rw [hd] at hi
  simpa using hi.symm.trans hj

theorem partKey_injective (path : String) {i j : Nat}
    (h : partKey path i = partKey path j) : i = j := by
  have hd := congrArg String.data h
  simp only [partKey, String.data_append, List.append_assoc] at hd
  have h1 := List.append_cancel_left hd
  have h2 := List.append_cancel_left h1
  have h3 : (Nat.repr i).data ++ (".".data ++ (Ext path).data)
      = (Nat.repr j).data ++ (".".data ++ (Ext path).data) := h2
  have h4 := List.append_cancel_right h3
  exact repr_injective (String.ext h4)

/-! ## The upload task -/

section Task

variable {α : Type} (env : Env α) (path : String) (S P : Int)

/-- A stored handle is the key of the task's own part, and comes with a `nil`
result and a written part object. -/
theorem uploadTask_handle_some {i : Nat} {k : Key}
    (h : (uploadTask env path S P i).handle = some k) :
    k = partKey path i ∧ (uploadTask env path S P i).err = none ∧
      (uploadTask env path S P i).object
        = some (partKey path i, (env.readAt i (bufLen S P i) (readOffset S P i)).data) := by
  simp only [uploadTask] at h ⊢
  cases hr : (env.readAt i (bufLen S P i) (readOffset S P i)).err with
  | some e =>
    rw [hr] at h
    by_cases he : e.isEOF = true <;> simp [he] at h
  | none =>
    rw [hr] at h
    cases hc : env.copy i with
    | some e => rw [hc] at h; simp at h
    | none =>
      rw [hc] at h
      simp only [Option.some.injEq] at h
      exact ⟨h.symm, rfl, rfl⟩

/-- A clean read followed by a clean copy writes the part and stores its
handle. -/
theorem uploadTask_ok {i : Nat}
    (hr : (env.readAt i (bufLen S P i) (readOffset S P i)).err = none)
    (hc : env.copy i = none) :
    uploadTask env path S P i =
      { err := none
        object := some (partKey path i,
          (env.readAt i (bufLen S P i) (readOffset S P i)).data)
        handle := some (partKey path i) } := by
  simp only [uploadTask]
  rw [hr, hc]

end Task

/-! ## The coordinator -/

section Coordinator

variable {α : Type} (env : Env α) (path : String) (S P : Int)

theorem complete_parts_length (st : Coord α) (i : Nat) :
    (complete env path S P st i).parts.length = st.parts.length := by
  simp only [complete]
  cases hh : (uploadTask env path S P i).handle <;> simp

theorem complete_parts_getElem? (st : Coord α) (i j : Nat) :
    (complete env path S P st i).parts[j]? =
      if i = j ∧ j < st.parts.length ∧ (uploadTask env path S P j).handle.isSome
      then some (uploadTask env path S P j).handle else st.parts[j]? := by
  simp only [complete]
  by_cases hij : i = j
  · subst hij
    cases hh : (uploadTask env path S P i).handle with
    | none => simp
    | some k =>
      by_cases hlt : i < st.parts.length
      · simp [List.getElem?_set, hlt]
      · simp [List.getElem?_set, hlt]
        omega
  · cases hh : (uploadTask env path S P i).handle with
    | none => simp [hij]
    | some k => simp [List.getElem?_set, hij]

theorem foldl_parts_length : ∀ (order : List Nat) (st : Coord α),
    (order.foldl (complete env path S P) st).parts.length = st.parts.length
  | [], _ => rfl
  | i :: rest, st => by
    rw [List.foldl_cons, foldl_parts_length rest, complete_parts_length]

/-- Slot `j` after the tasks of `order` took effect: the handle of task `j` if
that task ran and stored one, the earlier content otherwise. -/
theorem foldl_parts_getElem? : ∀ (order : List Nat) (st : Coord α) (j : Nat),
    (order.foldl (complete env path S P) st).parts[j]? =
      if j ∈ order ∧ j < st.parts.length ∧ (uploadTask env path S P j).handle.isSome
      then some (uploadTask env path S P j).handle else st.parts[j]?
  | [], st, j => by simp
  | i :: rest, st, j => by
    rw [List.foldl_cons, foldl_parts_getElem? rest, complete_parts_length,
      complete_parts_getElem?]
    by_cases h1 : j ∈ rest ∧ j < st.parts.length ∧
        (uploadTask env path S P j).handle.isSome
    · rw [if_pos h1, if_pos ⟨List.mem_cons_of_mem _ h1.1, h1.2⟩]
    · rw [if_neg h1]
      by_cases h2 : i = j ∧ j < st.parts.length ∧
          (uploadTask env path S P j).handle.isSome
      · rw [if_pos h2, if_pos ⟨by rw [h2.1]; exact List.mem_cons_self _ _, h2.2⟩]
      · rw [if_neg h2, if_neg]
        rintro ⟨hm, hrest⟩
        rcases List.mem_cons.mp hm with hji | hjr
        · exact h2 ⟨hji.symm, hrest⟩
        · exact h1 ⟨hjr, hrest⟩

theorem foldl_err_none : ∀ (order : List Nat) (st : Coord α),
    (order.foldl (complete env path S P) st).err = none ↔
      st.err = none ∧ ∀ i ∈ order, (uploadTask env path S P i).err = none
  | [], st => by simp
  | i :: rest, st => by
    rw [List.foldl_cons, foldl_err_none rest]
    simp only [complete]
    cases hst : st.err with
    | some e => simp
    | none => simp

theorem foldl_bucket : ∀ (order : List Nat) (st : Coord α),
    (order.foldl (complete env path S P) st).bucket =
      st.bucket ++ order.filterMap (fun i => (uploadTask env path S P i).object)
  | [], st => by simp
  | i :: rest, st => by
    rw [List.foldl_cons, foldl_bucket rest]
    simp only [complete]
    cases ho : (uploadTask env path S P i).object with
    | none => simp [List.filterMap_cons, ho]
    | some o => simp [List.filterMap_cons, ho]

theorem foldl_reads : ∀ (order : List Nat) (st : Coord α),
    (order.foldl (complete env path S P) st).reads =
      st.reads ++ order.map (fun i : Nat => (i, readOffset S P i, bufLen S P i))
  | [], st => by simp
  | i :: rest, st => by
    rw [List.foldl_cons, foldl_reads rest]
    simp [complete]

/-- Whatever the order in which the tasks take effect, slot `i` of `parts`
ends up holding what task `i` stored. -/
theorem joinTasks_parts {order : List Nat} (hperm : order.Perm (taskIndices P)) :
    (joinTasks env path S P order).parts =
      (taskIndices P).map (fun i => (uploadTask env path S P i).handle) := by
  apply List.ext_getElem?
  intro j
  unfold joinTasks
  rw [foldl_parts_getElem?]
  simp only [Coord.init, List.length_replicate, List.getElem?_replicate, taskIndices,
    hperm.mem_iff, List.mem_range, List.getElem?_map]
  by_cases hj : j < P.toNat
  · rw [List.getElem?_range hj]
    cases hh : (uploadTask env path S P j).handle <;> simp [hj, hh]
  · rw [List.getElem?_eq_none (by simpa using hj)]
    simp [hj]

theorem joinTasks_err_none {order : List Nat} (hperm : order.Perm (taskIndices P)) :
    (joinTasks env path S P order).err = none ↔
      ∀ i ∈ taskIndices P, (uploadTask env path S P i).err = none := by
  unfold joinTasks
  rw [foldl_err_none]
  simp only [Coord.init, true_and]
  exact ⟨fun h i hi => h i (hperm.mem_iff.mpr hi), fun h i hi => h i (hperm.mem_iff.mp hi)⟩

theorem joinTasks_bucket (order : List Nat) :
    (joinTasks env path S P order).bucket =
      order.filterMap (fun i => (uploadTask env path S P i).object) := by
  unfold joinTasks
  rw [foldl_bucket]
  simp [Coord.init]

theorem joinTasks_reads (order : List Nat) :
    (joinTasks env path S P order).reads =
      order.map (fun i : Nat => (i, readOffset S P i, bufLen S P i)) := by
  unfold joinTasks
  rw [foldl_reads]
  simp [Coord.init]

end Coordinator

/-! ## The whole run -/

section Whole

variable {α : Type} (env : Env α) (path : String) (S P : Int)

/-- When no task returns an error, the run issues one compose request over the
slots in index order, and the bucket holds what the tasks wrote. -/
theorem main_of_no_error {order : List Nat} (hP0 : P ≠ 0)
    (hperm : order.Perm (taskIndices P))
    (hok : ∀ i ∈ taskIndices P, (uploadTask env path S P i).err = none) :
    (main env path S P order).composeRequests =
        [(finalKey path, (taskIndices P).map (fun i => (uploadTask env path S P i).handle))] ∧
      (main env path S P order).bucket =
        order.filterMap (fun i => (uploadTask env path S P i).object) ∧
      (env.compose (finalKey path)
          ((taskIndices P).map (fun i => (uploadTask env path S P i).handle)) = none →
        (main env path S P order).final =
          (composeContent (order.filterMap (fun i => (uploadTask env path S P i).object))
            ((taskIndices P).map (fun i => (uploadTask env path S P i).handle))).map
            (fun c => (finalKey path, c)) ∧
        (main env path S P order).exit = Exit.success) := by
  have herr := (joinTasks_err_none env path S P hperm).mpr hok
  have hparts := joinTasks_parts env path S P hperm
  have hbucket := joinTasks_bucket env path S P order
  simp only [main, if_neg hP0]
  rw [herr]
  simp only [hparts, hbucket]
  cases hc : env.compose (finalKey path)
      ((taskIndices P).map (fun i => (uploadTask env path S P i).handle)) with
  | some e => simp
  | none => simp

/-- When some task returns an error, no compose request is issued. -/
theorem main_of_error {order : List Nat} (hperm : order.Perm (taskIndices P))
    {i : Nat} (hi : i ∈ taskIndices P) (herr : (uploadTask env path S P i).err ≠ none) :
    (main env path S P order).composeRequests = [] := by
  simp only [main]
  by_cases hP0 : P = 0
  · rw [if_pos hP0]
  · rw [if_neg hP0]
    cases hj : (joinTasks env path S P order).err with
    | some e => rfl
    | none => exact absurd ((joinTasks_err_none env path S P hperm).mp hj i hi) herr

end Whole

/-! ## Reading an unmodified file -/

section Content

variable {α : Type}

theorem osReadAt_inside (c : List α) {len off : Int} (hoff : 0 ≤ off) (hlen : 0 ≤ len)
    (h : off + len ≤ c.length) :
    osReadAt c len off = { data := (c.drop off.toNat).take len.toNat, err := none } := by
  have hl : ((c.drop off.toNat).take len.toNat).length = len.toNat := by
    rw [List.length_take, List.length_drop]
    omega
  simp only [osReadAt]
  rw [if_neg (by omega), if_neg (by omega)]

/-- On an unmodified file every task reads its range in full, writes it and
stores its handle. -/
theorem uploadTask_fileEnv (c : List α) (path : String) {P : Int} (hP : 1 ≤ P)
    (hP2 : P < 2 ^ 63) (hS2 : (c.length : Int) < 2 ^ 63) {i : Nat} (hi : (i : Int) < P) :
    uploadTask (fileEnv c) path c.length P i =
      { err := none
        object := some (partKey path i, rangeBytes c c.length P i)
        handle := some (partKey path i) } := by
  have hS : (0 : Int) ≤ c.length := Int.natCast_nonneg _
  have hq : 0 ≤ (c.length : Int) / P := Int.ediv_nonneg hS (by omega)
  have hr : 0 ≤ (c.length : Int) % P := Int.emod_nonneg _ (by omega)
  have hoff := readOffset_eq hS hS2 hP hi
  have hlen := bufLen_eq hS hS2 hP hP2 (i : Int)
  have hle := mul_div_le hS hP hi
  have hnn : 0 ≤ (i : Int) * ((c.length : Int) / P) := Int.mul_nonneg (by omega) hq
  have hread : (fileEnv c).readAt i (bufLen c.length P i) (readOffset c.length P i) =
      { data := rangeBytes c c.length P i, err := none } := by
    show osReadAt c _ _ = _
    rw [osReadAt_inside c (by omega) (by rw [hlen]; split <;> omega)
      (by rw [hoff, hlen]; split <;> omega)]
    rfl
  rw [uploadTask_ok (fileEnv c) path c.length P (by rw [hread]) rfl, hread]

theorem flatten_slices (c : List α) (q : Nat) : ∀ k : Nat,
    ((List.range k).map (fun i => (c.drop (i * q)).take q)).flatten = c.take (k * q)
  | 0 => by simp
  | k + 1 => by
    rw [List.range_succ, List.map_append, List.flatten_append, flatten_slices c q k,
      Nat.succ_mul, List.take_add]
    simp

/-- The range of task `i` in natural numbers. -/
theorem rangeBytes_eq (c : List α) {n : Nat} (hn : 1 ≤ n) (hn2 : (n : Int) < 2 ^ 63)
    (hS2 : (c.length : Int) < 2 ^ 63) {i : Nat} (hi : i < n) :
    rangeBytes c c.length n i =
      (c.drop (i * (c.length / n))).take
        (if i + 1 = n then c.length / n + c.length % n else c.length / n) := by
  have hS : (0 : Int) ≤ c.length := Int.natCast_nonneg _
  have hoff := readOffset_eq hS hS2 (show (1 : Int) ≤ n by omega) (i := i) (by omega)
  have hlen := bufLen_eq hS hS2 (show (1 : Int) ≤ n by omega) hn2 (i : Int)
  have ho : (readOffset c.length n i).toNat = i * (c.length / n) := by
    rw [hoff, ← Int.natCast_div, ← Int.natCast_mul, Int.toNat_natCast]
  have hl : (bufLen c.length n i).toNat =
      if i + 1 = n then c.length / n + c.length % n else c.length / n := by
    rw [hlen]
    by_cases h : i + 1 = n
    · rw [if_pos (by omega), if_pos h, ← Int.natCast_div, ← Int.natCast_mod,
        ← Int.natCast_add, Int.toNat_natCast]
    · rw [if_neg (by omega), if_neg h, ← Int.natCast_div, Int.toNat_natCast]
  unfold rangeBytes
  rw [ho, hl]

/-- The range of task `i` for a part count given as an integer. -/
theorem rangeBytes_eq_toNat (c : List α) {P : Int} (hP : 1 ≤ P) (hP2 : P < 2 ^ 63)
    (hS2 : (c.length : Int) < 2 ^ 63) {i : Nat} (hi : i < P.toNat) :
    rangeBytes c c.length P i =
      (c.drop (i * (c.length / P.toNat))).take
        (if i + 1 = P.toNat then c.length / P.toNat + c.length % P.toNat
          else c.length / P.toNat) := by
  obtain ⟨n, rfl⟩ : ∃ n : Nat, P = (n : Int) := ⟨P.toNat, by omega⟩
  rw [Int.toNat_natCast] at hi ⊢
  exact rangeBytes_eq c (by omega) hP2 hS2 hi

/-- The ranges of an unmodified file, put end to end in index order, give the
file back. -/
theorem flatten_rangeBytes (c : List α) {P : Int} (hP : 1 ≤ P) (hP2 : P < 2 ^ 63)
    (hS2 : (c.length : Int) < 2 ^ 63) :
    ((taskIndices P).map (rangeBytes c c.length P)).flatten = c := by
  obtain ⟨m, rfl⟩ : ∃ m : Nat, P = ((m + 1 : Nat) : Int) :=
    ⟨P.toNat - 1, by omega⟩
  have hfirst : (List.range m).map (rangeBytes c c.length ((m + 1 : Nat) : Int)) =
      (List.range m).map (fun i => (c.drop (i * (c.length / (m + 1)))).take
        (c.length / (m + 1))) := by
    apply List.map_congr_left
    intro i hi
    have hi2 : i < m := List.mem_range.mp hi
    rw [rangeBytes_eq c (by omega) hP2 hS2 (show i < m + 1 by omega), if_neg (by omega)]
  have hlast := rangeBytes_eq c (show 1 ≤ m + 1 by omega) hP2 hS2 (show m < m + 1 by omega)
  rw [if_pos rfl] at hlast
  have hdm := Nat.div_add_mod c.length (m + 1)
  have htotal : m * (c.length / (m + 1)) + (c.length / (m + 1) + c.length % (m + 1))
      = c.length := by
    rw [Nat.succ_mul] at hdm
    omega
  unfold taskIndices
  rw [Int.toNat_natCast, List.range_succ, List.map_append, List.flatten_append, hfirst,
    flatten_slices, List.map_singleton, hlast]
  simp only [List.flatten_cons, List.flatten_nil, List.append_nil]
  rw [← List.take_add, htotal, List.take_length]

theorem filterMap_eq_map_of {β γ : Type} (f : β → Option γ) (g : β → γ) :
    ∀ l : List β, (∀ x ∈ l, f x = some (g x)) → l.filterMap f = l.map g
  | [], _ => rfl
  | x :: l, h => by
    rw [List.filterMap_cons, h x (List.mem_cons_self _ _), List.map_cons,
      filterMap_eq_map_of f g l (fun y hy => h y (List.mem_cons_of_mem _ hy))]

/-- In a bucket written by distinct tasks, the key of part `j` names the
content written by task `j`. -/
theorem lookupObject_map (path : String) (content : Nat → List α) (order : List Nat)
    {j : Nat} (hj : j ∈ order) :
    lookupObject (order.map (fun i => (partKey path i, content i))) (partKey path j)
      = some (content j) := by
  unfold lookupObject
  cases hf : List.find? (fun o => decide (o.1 = partKey path j))
      (order.map (fun i => (partKey path i, content i))).reverse with
  | none =>
    have hnone := List.find?_eq_none.mp hf (partKey path j, content j)
      (List.mem_reverse.mpr (List.mem_map.mpr ⟨j, hj, rfl⟩))
    simp at hnone
  | some x =>
    have hp := List.find?_some hf
    have hmem := List.mem_reverse.mp (List.mem_of_find?_eq_some hf)
    obtain ⟨i, _, rfl⟩ := List.mem_map.mp hmem
    have hkey : partKey path i = partKey path j := by simpa using hp
    rw [partKey_injective path hkey]
    rfl

theorem composeContent_map (path : String) (content : Nat → List α)
    (bucket : List (Key × List α)) :
    ∀ l : List Nat, (∀ j ∈ l, lookupObject bucket (partKey path j) = some (content j)) →
      composeContent bucket (l.map (fun i => some (partKey path i)))
        = some ((l.map content).flatten)
  | [], _ => rfl
  | j :: l, h => by
    rw [List.map_cons, composeContent, h j (List.mem_cons_self _ _),
      composeContent_map path content bucket l (fun k hk => h k (List.mem_cons_of_mem _ hk))]
    rfl

end Content

/-! ## The partition plan -/

/-- C1: for a file size `0 ≤ S` and a part count `1 ≤ P` (both `int64`), the
`P` ranges read by the program (range `i` starts at `i*(S div P)` and is as
long as the buffer of task `i`) start at offset 0, have non-decreasing offsets,
are contiguous, do not overlap, have lengths that sum to `S`, and every byte of
the file lies in exactly one of them. -/
theorem ranges_cover_file_exactly_once (S P : Int) (hS : 0 ≤ S) (hS2 : S < 2 ^ 63)
    (hP : 1 ≤ P) (hP2 : P < 2 ^ 63) :
    (plan S P).length = P.toNat ∧
    (∀ i : Nat, i < P.toNat → (plan S P)[i]? = some (rangeOf S P i)) ∧
    readOffset S P 0 = 0 ∧
    (∀ i : Nat, i < P.toNat → 0 ≤ bufLen S P i) ∧
    (∀ i j : Nat, i ≤ j → j < P.toNat → readOffset S P i ≤ readOffset S P j) ∧
    (∀ i : Nat, i + 1 < P.toNat →
      readOffset S P ((i + 1 : Nat) : Int) = readOffset S P i + bufLen S P i) ∧
    (∀ i j : Nat, i < j → j < P.toNat →
      readOffset S P i + bufLen S P i ≤ readOffset S P j) ∧
    ((plan S P).map ByteRange.length).sum = S ∧
    (∀ b : Int, 0 ≤ b → b < S →
      ∃! i : Nat, i < P.toNat ∧ readOffset S P i ≤ b ∧
        b < readOffset S P i + bufLen S P i) := by
  have hq : 0 ≤ S / P := Int.ediv_nonneg hS (by omega)
  have hr : 0 ≤ S % P := Int.emod_nonneg S (by omega)
  have hdm : P * (S / P) + S % P = S := Int.ediv_add_emod S P
  have off : ∀ i : Nat, i < P.toNat → readOffset S P i = (i : Int) * (S / P) :=
    fun i hi => readOffset_eq hS hS2 hP (by omega)
  have len := bufLen_eq hS hS2 hP hP2
  -- the end of a range never passes the start of a later one
  have sep : ∀ i j : Nat, i < j → j < P.toNat →
      readOffset S P i + bufLen S P i ≤ readOffset S P j := by
    intro i j hij hj
    rw [off i (by omega), off j hj, len, if_neg (by omega)]
    have := mul_le_mul_base (show (i : Int) + 1 ≤ (j : Int) by omega) hq
    linarith
  refine ⟨plan_length S P, ?_, ?_, ?_, ?_, ?_, sep, plan_lengths_sum hS hS2 hP hP2, ?_⟩
  · intro i hi
    simp [plan, taskIndices, List.getElem?_range hi]
  · have := off 0 (by omega)
    simpa using this
  · intro i _
    rw [len]
    split <;> omega
  · intro i j hij hj
    rw [off i (by omega), off j hj]
    exact mul_le_mul_base (by omega) hq
  · intro i hi
    rw [off (i + 1) hi, off i (by omega), len, if_neg (by omega)]
    push_cast
    ring
  · intro b hb0 hbS
    -- the range holding byte `b`
    have hex : ∃ i : Nat, i < P.toNat ∧ readOffset S P i ≤ b ∧
        b < readOffset S P i + bufLen S P i := by
      by_cases hlast : b < (P - 1) * (S / P)
      · have hqpos : 0 < S / P := by
          by_contra hne
          have hz : S / P = 0 := by omega
          rw [hz] at hlast
          omega
        have hk0 : 0 ≤ b / (S / P) := Int.ediv_nonneg hb0 hq
        have hkb : b / (S / P) * (S / P) ≤ b := Int.ediv_mul_le b (by omega)
        have hkb2 : b < (b / (S / P) + 1) * (S / P) := by
          have := Int.lt_ediv_add_one_mul_self b hqpos
          linarith
        have hklt : b / (S / P) < P - 1 := by
          by_contra hge
          have := mul_le_mul_base (show P - 1 ≤ b / (S / P) by omega) hq
          omega
        refine ⟨(b / (S / P)).toNat, by omega, ?_, ?_⟩
        · rw [off _ (by omega), Int.toNat_of_nonneg hk0]
          exact hkb
        · rw [off _ (by omega), len, Int.toNat_of_nonneg hk0, if_neg (by omega)]
          linarith
      · refine ⟨(P - 1).toNat, by omega, ?_, ?_⟩
        · rw [off _ (by omega), Int.toNat_of_nonneg (by omega)]
          omega
        · rw [off _ (by omega), len, Int.toNat_of_nonneg (by omega), if_pos rfl]
          linarith
    obtain ⟨i, hi, hlo, hhi⟩ := hex
    refine ⟨i, ⟨hi, hlo, hhi⟩, ?_⟩
    rintro j ⟨hj, hjlo, hjhi⟩
    rcases Nat.lt_trichotomy j i with h | h | h
    · have := sep j i h hi
      omega
    · exact h
    · have := sep i j h hj
      omega

/-- Witness for C1: the plan of a 23-byte file in 5 parts. -/
theorem ranges_cover_file_exactly_once_witness :
    (plan 23 5).length = 5 ∧ ((plan 23 5).map ByteRange.length).sum = 23 :=
  have h := ranges_cover_file_exactly_once 23 5 (by decide) (by decide) (by decide)
    (by decide)
  ⟨h.1, h.2.2.2.2.2.2.2.1⟩

/-- C2: with `base = S div P` and `remainder = S mod P`, every task `i < P-1`
reads at offset `i*base` into a buffer of length `base`, and the task `P-1`
reads at offset `(P-1)*base` into a buffer of length `base + remainder`; for
`P = 5` and `S = 23` the lengths are `[4,4,4,4,7]` at offsets
`[0,4,8,12,16]`. -/
theorem ranges_base_and_last (S P : Int) (hS : 0 ≤ S) (hS2 : S < 2 ^ 63)
    (hP : 1 ≤ P) (hP2 : P < 2 ^ 63) :
    (∀ i : Nat, (i : Int) < P - 1 →
      readOffset S P i = (i : Int) * (S / P) ∧ bufLen S P i = S / P) ∧
    (readOffset S P (P - 1) = (P - 1) * (S / P) ∧
      bufLen S P (P - 1) = S / P + S % P) ∧
    (plan 23 5).map ByteRange.length = [4, 4, 4, 4, 7] ∧
    (plan 23 5).map ByteRange.offset = [0, 4, 8, 12, 16] := by
  have len := bufLen_eq hS hS2 hP hP2
  refine ⟨?_, ⟨?_, ?_⟩, by decide, by decide⟩
  · intro i hi
    refine ⟨readOffset_eq hS hS2 hP (by omega), ?_⟩
    rw [len, if_neg (by omega)]
  · have h := readOffset_eq hS hS2 hP (i := (P - 1).toNat) (by omega)
    rw [Int.toNat_of_nonneg (by omega)] at h
    exact h
  · rw [len, if_pos rfl]

/-- Witness for C2: a 10-byte file in 3 parts has base 3 and remainder 1. -/
theorem ranges_base_and_last_witness :
    readOffset 10 3 (3 - 1) = (3 - 1) * (10 / 3) ∧ bufLen 10 3 (3 - 1) = 10 / 3 + 10 % 3 :=
  (ranges_base_and_last 10 3 (by decide) (by decide) (by decide) (by decide)).2.1

/-- C10: for `0 ≤ S < 2^63` and `1 ≤ P < 2^63` no 64-bit computation of the
plan leaves the `int64` range, so each reduced result is the exact integer
result: the quotient, the remainder and `P-1` are exact; for every index
`i < P` the offset is `i*(S div P)` with `0 ≤ i*(S div P) ≤ S`; the final
buffer length is `(S div P) + (S mod P)` with `0 ≤ … ≤ S`; and every range ends
at or before `S`, the final range exactly at `S`. -/
theorem plan_arithmetic_does_not_overflow (S P : Int) (hS : 0 ≤ S) (hS2 : S < 2 ^ 63)
    (hP : 1 ≤ P) (hP2 : P < 2 ^ 63) :
    sizeOfEachPart S P = Int.tdiv S P ∧ Int.tdiv S P = S / P ∧
    remainder S P = Int.tmod S P ∧ Int.tmod S P = S % P ∧
    wrap64 (P - 1) = P - 1 ∧
    (0 ≤ S / P + S % P ∧ S / P + S % P ≤ S ∧ InInt64 (S / P + S % P) ∧
      bufLen S P (P - 1) = S / P + S % P) ∧
    (∀ i : Nat, (i : Int) < P →
      InInt64 ((i : Int) * (S / P)) ∧
      readOffset S P i = (i : Int) * (S / P) ∧
      0 ≤ readOffset S P i ∧ readOffset S P i ≤ S ∧
      readOffset S P i + bufLen S P i ≤ S ∧
      ((i : Int) = P - 1 → readOffset S P i + bufLen S P i = S)) := by
  have hq : 0 ≤ S / P := Int.ediv_nonneg hS (by omega)
  have hr : 0 ≤ S % P := Int.emod_nonneg S (by omega)
  have hdm : P * (S / P) + S % P = S := Int.ediv_add_emod S P
  have hdiv : Int.tdiv S P = S / P := Int.tdiv_eq_ediv hS (by omega)
  have hmod : Int.tmod S P = S % P := Int.tmod_eq_emod hS (by omega)
  have len := bufLen_eq hS hS2 hP hP2
  have hlast := mul_div_le hS hP (show (0 : Int) < P by omega)
  refine ⟨?_, hdiv, ?_, hmod, wrap64_pred hP hP2, ⟨by omega, by omega, ⟨by omega, by omega⟩, ?_⟩,
    ?_⟩
  · rw [hdiv]
    exact sizeOfEachPart_eq hS hS2 hP
  · rw [hmod]
    exact remainder_eq hS hP hP2
  · rw [len, if_pos rfl]
  · intro i hi
    have hoff := readOffset_eq hS hS2 hP hi
    have hle := mul_div_le hS hP hi
    have hnn : 0 ≤ (i : Int) * (S / P) := Int.mul_nonneg (by omega) hq
    refine ⟨⟨by omega, by omega⟩, hoff, by omega, by omega, ?_, ?_⟩
    · rw [hoff, len]
      split <;> omega
    · intro hiP
      rw [hoff, len, if_pos hiP, hiP]
      linarith

/-- Witness for C10: the largest file size with three parts. -/
theorem plan_arithmetic_does_not_overflow_witness :
    sizeOfEachPart (2 ^ 63 - 1) 3 = Int.tdiv (2 ^ 63 - 1) 3 ∧
      wrap64 ((3 : Int) - 1) = 3 - 1 :=
  have h := plan_arithmetic_does_not_overflow (2 ^ 63 - 1) 3 (by decide) (by decide)
    (by decide) (by decide)
  ⟨h.1, h.2.2.2.2.1⟩

/-! ## Upload tasks and compose -/

/-- C4 (counterexample): the file was reported with 4 bytes and holds 1 byte
when it is read; with 2 parts, task 0 is not the final task, its read of
`[0,2)` ends in `io.EOF` before its boundary, and the task returns no error. -/
theorem eof_on_nonfinal_part_is_not_an_error :
    (0 : Int) ≠ wrap64 (2 - 1) ∧
    ((fileEnv "A".toList).readAt 0 (bufLen 4 2 0) (readOffset 4 2 0)).err = some Err.eof ∧
    ((fileEnv "A".toList).readAt 0 (bufLen 4 2 0) (readOffset 4 2 0)).data.length < 2 ∧
    (uploadTask (fileEnv "A".toList) "f" 4 2 0).err = none := by
  decide

/-- C4 (amended): in an upload task an `io.EOF` from the positional read is
never returned as the task's error, whatever the partition index and wherever
the end of file lies; every other read error is returned as the task's
error. -/
theorem eof_is_never_reported {α : Type} (env : Env α) (path : String) (S P : Int)
    (i : Nat) :
    (∀ e : Err, (env.readAt i (bufLen S P i) (readOffset S P i)).err = some e →
      e.isEOF = true → (uploadTask env path S P i).err = none) ∧
    (∀ e : Err, (env.readAt i (bufLen S P i) (readOffset S P i)).err = some e →
      e.isEOF = false → (uploadTask env path S P i).err = some e) := by
  constructor
  · intro e hr he
    simp only [uploadTask]
    rw [hr]
    simp [he]
  · intro e hr he
    simp only [uploadTask]
    rw [hr]
    simp [he]

/-- Witness for C4 (amended): the truncated file of the counterexample. -/
theorem eof_is_never_reported_witness :
    (uploadTask (fileEnv "A".toList) "f" 4 2 0).err = none :=
  (eof_is_never_reported (fileEnv "A".toList) "f" 4 2 0).1 Err.eof (by decide) (by decide)

/-- C5 (the code at the failing input): the file was reported with 4 bytes and
holds 2 bytes when it is read. With 2 parts, the read of task 1 ends in
`io.EOF`, the task returns `nil` without writing its part or storing a handle,
and the compose request is issued over a sequence whose slot 1 is empty while
one part object exists. -/
theorem compose_issued_with_empty_slot :
    (uploadTask (fileEnv "AB".toList) "f" 4 2 1).err = none ∧
    (uploadTask (fileEnv "AB".toList) "f" 4 2 1).object = none ∧
    (uploadTask (fileEnv "AB".toList) "f" 4 2 1).handle = none ∧
    (main (fileEnv "AB".toList) "f" 4 2 [0, 1]).composeRequests
      = [("f", [some "f-0.", none])] ∧
    (main (fileEnv "AB".toList) "f" 4 2 [0, 1]).bucket = [("f-0.", "AB".toList)] := by
  decide

/-- C6: for a part count `1 ≤ P` and every order in which the `P` tasks take
effect, if every task stores its handle then exactly one compose request is
issued, its source sequence has length `P`, and its element at position `i` is
the handle of part `i`; the sequence does not depend on the order. -/
theorem compose_once_in_index_order {α : Type} (env : Env α) (path : String)
    (S P : Int) (order : List Nat) (hP : 1 ≤ P) (hperm : order.Perm (taskIndices P))
    (hall : ∀ i ∈ taskIndices P, (uploadTask env path S P i).handle.isSome = true) :
    (main env path S P order).composeRequests =
        [(finalKey path, (taskIndices P).map (fun i => some (partKey path i)))] ∧
      ((taskIndices P).map (fun i => some (partKey path i))).length = P.toNat ∧
      (∀ i : Nat, i < P.toNat →
        ((taskIndices P).map (fun i => some (partKey path i)))[i]?
          = some (some (partKey path i))) := by
  have hhandle : ∀ i ∈ taskIndices P,
      (uploadTask env path S P i).handle = some (partKey path i) ∧
        (uploadTask env path S P i).err = none := by
    intro i hi
    obtain ⟨k, hk⟩ := Option.isSome_iff_exists.mp (hall i hi)
    obtain ⟨hkey, herr, _⟩ := uploadTask_handle_some env path S P hk
    exact ⟨by rw [hk, hkey], herr⟩
  have hmain := (main_of_no_error env path S P (by omega) hperm
    (fun i hi => (hhandle i hi).2)).1
  refine ⟨?_, by simp [taskIndices], ?_⟩
  · rw [hmain]
    congr 2
    exact List.map_congr_left (fun i hi => (hhandle i hi).1)
  · intro i hi
    simp [taskIndices, List.getElem?_range hi]

/-- Witness for C6: three parts whose tasks take effect in the order 2, 0, 1. -/
theorem compose_once_in_index_order_witness :
    (main (fileEnv "ABCDEFGHI".toList) "f" 9 3 [2, 0, 1]).composeRequests =
      [(finalKey "f", (taskIndices 3).map (fun i => some (partKey "f" i)))] :=
  (compose_once_in_index_order (fileEnv "ABCDEFGHI".toList) "f" 9 3 [2, 0, 1]
    (by decide) (by decide) (by decide)).1

set_option maxRecDepth 100000

/-- C7 (counterexample): with the part count `-1` nothing is rejected: the
program goes on to issue a compose request, over an empty source sequence; with
the part count 33 all 33 parts are read and written and the compose request
names 33 sources. -/
theorem invalid_part_count_is_not_rejected :
    (main (fileEnv "0123456789".toList) "f" 10 (-1) []).composeRequests = [("f", [])] ∧
    (main (fileEnv (List.replicate 33 'x')) "f" 33 33 (List.range 33)).bucket.length = 33 ∧
    (main (fileEnv (List.replicate 33 'x')) "f" 33 33 (List.range 33)).composeRequests.map
      (fun r => r.2.length) = [33] := by
  decide

/-- C7 (amended): for a part count `P ≤ 0` the program reports no planning
error. No part is read or written. With `P = 0` it stops at the integer
division by zero, before any compose request; with `P < 0` it issues the
compose request, over an empty source sequence. -/
theorem nonpositive_part_count {α : Type} (env : Env α) (path : String) (S P : Int)
    (order : List Nat) (hP : P ≤ 0) (hperm : order.Perm (taskIndices P)) :
    (main env path S P order).reads = [] ∧
    (main env path S P order).bucket = [] ∧
    (P = 0 → (main env path S P order).exit = Exit.divideByZero ∧
      (main env path S P order).composeRequests = []) ∧
    (P < 0 → (main env path S P order).composeRequests = [(finalKey path, [])]) := by
  have hnil : taskIndices P = [] := by
    simp [taskIndices, Int.toNat_of_nonpos hP]
  have horder : order = [] := by
    rw [hnil] at hperm
    exact List.Perm.eq_nil hperm
  subst horder
  by_cases hP0 : P = 0
  · subst hP0
    simp [main]
  · have hmain := main_of_no_error env path S P hP0 hperm (by simp [hnil])
    have hreads : (main env path S P []).reads = [] := by
      simp only [main, if_neg hP0, joinTasks, List.foldl_nil, Coord.init]
      cases env.compose (finalKey path) (List.replicate P.toNat none) <;> rfl
    refine ⟨hreads, by simpa using hmain.2.1, fun h => absurd h hP0, fun _ => ?_⟩
    rw [hmain.1, hnil]
    rfl

/-- Witness for C7 (amended): the part count `-1`. -/
theorem nonpositive_part_count_witness :
    (main (fileEnv "0123456789".toList) "f" 10 (-1) []).reads = [] ∧
    (main (fileEnv "0123456789".toList) "f" 10 (-1) []).bucket = [] :=
  have h := nonpositive_part_count (fileEnv "0123456789".toList) "f" 10 (-1) []
    (by decide) (by decide)
  ⟨h.1, h.2.1⟩

/-- C8 (the code at the failing input): for the path `data.bin` the key of
part 2 is `data.bin-2..bin`, with two dots before the extension, because
`filepath.Ext` returns the extension with its leading dot; it is not
`data.bin-2.bin`. The key of the composed object is `data.bin`. -/
theorem part_key_has_two_dots :
    Ext "data.bin" = ".bin" ∧
    partKey "data.bin" 2 = "data.bin-2..bin" ∧
    partKey "data.bin" 2 ≠ "data.bin-2.bin" ∧
    finalKey "data.bin" = "data.bin" := by
  decide

/-- C3: for a file content `c` and a part count `1 ≤ P`, when the file is not
modified during the run and no write fails, the part object written by task `i`
holds exactly the bytes of `c` in its range (those from position `i*base` on,
`base` of them, or `base + remainder` for the last task), the bucket returns
those bytes under the key of part `i`, the part contents put end to end in
ascending index order are `c`, and the composed object holds `c`; for
`c = "ABCDEFGHI"` and `P = 3` the parts are `"ABC"`, `"DEF"`, `"GHI"` and the
composed content is `"ABCDEFGHI"`. -/
theorem parts_concatenate_to_file {α : Type} (c : List α) (path : String) (P : Int)
    (order : List Nat) (hP : 1 ≤ P) (hP2 : P < 2 ^ 63)
    (hS2 : (c.length : Int) < 2 ^ 63) (hperm : order.Perm (taskIndices P)) :
    (∀ i ∈ taskIndices P,
      (uploadTask (fileEnv c) path c.length P i).object
        = some (partKey path i, rangeBytes c c.length P i) ∧
      lookupObject (main (fileEnv c) path c.length P order).bucket (partKey path i)
        = some (rangeBytes c c.length P i) ∧
      rangeBytes c c.length P i =
        (c.drop (i * (c.length / P.toNat))).take
          (if i + 1 = P.toNat then c.length / P.toNat + c.length % P.toNat
            else c.length / P.toNat)) ∧
    ((taskIndices P).map (rangeBytes c c.length P)).flatten = c ∧
    (main (fileEnv c) path c.length P order).final = some (finalKey path, c) ∧
    (main (fileEnv "ABCDEFGHI".toList) "f" 9 3 [0, 1, 2]).bucket
      = [("f-0.", "ABC".toList), ("f-1.", "DEF".toList), ("f-2.", "GHI".toList)] ∧
    (main (fileEnv "ABCDEFGHI".toList) "f" 9 3 [0, 1, 2]).final
      = some ("f", "ABCDEFGHI".toList) := by
  have htask : ∀ i ∈ taskIndices P, uploadTask (fileEnv c) path c.length P i =
      { err := none
        object := some (partKey path i, rangeBytes c c.length P i)
        handle := some (partKey path i) } := by
    intro i hi
    have hlt : i < P.toNat := List.mem_range.mp hi
    exact uploadTask_fileEnv c path hP hP2 hS2 (by omega)
  have hmain := main_of_no_error (fileEnv c) path c.length P (by omega) hperm
    (fun i hi => by rw [htask i hi])
  have hbucket : (main (fileEnv c) path c.length P order).bucket =
      order.map (fun i => (partKey path i, rangeBytes c c.length P i)) := by
    rw [hmain.2.1]
    exact filterMap_eq_map_of _ _ order
      (fun i hi => by rw [htask i (hperm.mem_iff.mp hi)])
  have hparts : (taskIndices P).map
      (fun i => (uploadTask (fileEnv c) path c.length P i).handle) =
      (taskIndices P).map (fun i => some (partKey path i)) :=
    List.map_congr_left (fun i hi => by rw [htask i hi])
  have hlookup : ∀ i ∈ taskIndices P,
      lookupObject (main (fileEnv c) path c.length P order).bucket (partKey path i)
        = some (rangeBytes c c.length P i) := by
    intro i hi
    rw [hbucket]
    exact lookupObject_map path _ order (hperm.mem_iff.mpr hi)
  have hflat := flatten_rangeBytes c hP hP2 hS2
  refine ⟨fun i hi => ⟨by rw [htask i hi], hlookup i hi,
    rangeBytes_eq_toNat c hP hP2 hS2 (List.mem_range.mp hi)⟩, hflat, ?_, by decide,
    by decide⟩
  rw [(hmain.2.2 rfl).1, ← hmain.2.1, hparts,
    composeContent_map path (rangeBytes c c.length P) _ (taskIndices P) hlookup, hflat]
  rfl

/-- Witness for C3: the nine-byte file in three parts, the tasks taking effect
in the order 1, 2, 0. -/
theorem parts_concatenate_to_file_witness :
    (main (fileEnv "ABCDEFGHI".toList) "data.bin"
        (("ABCDEFGHI".toList.length : Nat) : Int) 3 [1, 2, 0]).final
      = some (finalKey "data.bin", "ABCDEFGHI".toList) :=
  (parts_concatenate_to_file "ABCDEFGHI".toList "data.bin" 3 [1, 2, 0] (by decide)
    (by decide) (by decide) (by decide)).2.2.1

end Multipart
